import Mathlib

set_option maxRecDepth 40000

namespace AmazonCaptcha

/-- Grayscale image: width, height and the pixel grid (gray value at `(x, y)`,
a byte in `[0, 255]`).  Mirrors Go `image.Gray` with `Min = (0, 0)`; reads out
of bounds yield `0` via `grayAt`, matching `image.Gray.GrayAt`. -/
structure GrayImage where
  width : Nat
  height : Nat
  pixel : Nat → Nat → Nat

/-- Bounds-checked pixel read, mirroring Go `img.GrayAt(x, y).Y` which returns
the zero `color.Gray` outside the image rectangle. -/
def grayAt (img : GrayImage) (x y : Nat) : Nat :=
  if x < img.width ∧ y < img.height then img.pixel x y else 0

/-- A color sample as returned by Go `color.Color.RGBA()`: alpha-premultiplied
16-bit components. -/
structure RGBAColor where
  r : Nat
  g : Nat
  b : Nat
  a : Nat

/-- Decoded input image (the value produced by `image.Decode`). -/
structure RGBAImage where
  width : Nat
  height : Nat
  pixel : Nat → Nat → RGBAColor

/-- Go constant `MonoWeight = 1` (threshold for binarization). -/
def MonoWeight : Nat := 1

/-- Go constant `MaximumLetterLength = 33` (maximum width of a single letter). -/
def MaximumLetterLength : Nat := 33

/-- Go constant `MinimumLetterLength = 14` (minimum width of the first letter). -/
def MinimumLetterLength : Nat := 14

/-- The all-zero empty image, used as a harmless default for list lookups. -/
def emptyGray : GrayImage := ⟨0, 0, fun _ _ => 0⟩

/-- The blank placeholder `image.NewGray(image.Rect(0, 0, 200, 70))`:
`NewGray` zero-initializes its buffer, so every pixel has gray value `0`. -/
def blankLetter : GrayImage := ⟨200, 70, fun _ _ => 0⟩

/-- Go `color.GrayModel.Convert` luma formula on 16-bit components:
`(19595*r + 38470*g + 7471*b + 1<<15) >> 24`, truncated to a byte. -/
def grayModelConvert (c : RGBAColor) : Nat :=
  ((19595 * c.r + 38470 * c.g + 7471 * c.b + 32768) >>> 24) % 256

/-- `Grayscale` from the source: convert each pixel with the gray color model. -/
def Grayscale (img : RGBAImage) : GrayImage :=
  { width := img.width
    height := img.height
    pixel := fun x y =>
      if x < img.width ∧ y < img.height then grayModelConvert (img.pixel x y) else 0 }

/-- `MonoChrome` from the source: pixel becomes `0` (black) when its gray value
is `≤ threshold`, else `255` (white). -/
def MonoChrome (img : GrayImage) (threshold : Nat) : GrayImage :=
  { width := img.width
    height := img.height
    pixel := fun x y =>
      if x < img.width ∧ y < img.height then
        if img.pixel x y ≤ threshold then 0 else 255
      else 0 }

/-- An axis-aligned rectangle, mirroring Go `image.Rectangle` (here always with
`Min.X ≤ Max.X` and `Min.Y ≤ Max.Y` as produced by the segmenter). -/
structure Rect where
  minX : Nat
  minY : Nat
  maxX : Nat
  maxY : Nat
deriving DecidableEq, Repr

/-- Column scan of `FindLetterBoxes`: does column `x` contain a black pixel? -/
def colHasBlack (img : GrayImage) (x : Nat) : Bool :=
  (List.range img.height).any fun y => grayAt img x y == 0

/-- Emission step shared by both closing sites inside `FindLetterBoxes`
(the Go source duplicates this code for mid-image and right-edge runs):
a run `[s, e]` yields one box when its width fits in `maxLength`, otherwise
two boxes split at the midpoint. -/
def closeRun (maxLength height s e : Nat) : List Rect :=
  if e - s + 1 ≤ maxLength then
    [⟨s, 0, e + 1, height⟩]
  else
    let mid := (s + e) / 2
    [⟨s, 0, mid + 1, height⟩, ⟨mid + 1, 0, e + 1, height⟩]

/-- One iteration of the column loop of `FindLetterBoxes`: the state is the
optional start of the currently open run plus the boxes emitted so far. -/
def fbStep (p : Nat → Bool) (maxLength height : Nat)
    (st : Option Nat × List Rect) (x : Nat) : Option Nat × List Rect :=
  match st with
  | (some s, boxes) =>
    if p x then (some s, boxes)
    else (none, boxes ++ closeRun maxLength height s (x - 1))
  | (none, boxes) =>
    if p x then (some x, boxes) else (none, boxes)

/-- `FindLetterBoxes` from the source: scan the columns left to right, turn
each maximal run of ink columns into one or two boxes, and close a run still
open at the right edge the same way. -/
def FindLetterBoxes (img : GrayImage) (maxLength : Nat) : List Rect :=
  let width := img.width
  let height := img.height
  let r := (List.range width).foldl (fbStep (colHasBlack img) maxLength height) (none, [])
  match r with
  | (some s, boxes) => boxes ++ closeRun maxLength height s (width - 1)
  | (none, boxes) => boxes

/-- Reference recursion for the column scan, used to reason about the fold:
`n` is the number of columns still to scan, `x` the current column, and the
image width is `w` (kept only for closing a run at the right edge). -/
def runsGo (p : Nat → Bool) (w : Nat) : Nat → Nat → Option Nat → List (Nat × Nat)
  | 0, _, some s => [(s, w - 1)]
  | 0, _, none => []
  | n + 1, x, st =>
    if p x then runsGo p w n (x + 1) (some (st.getD x))
    else
      match st with
      | some s => (s, x - 1) :: runsGo p w n (x + 1) none
      | none => runsGo p w n (x + 1) none

/-- The list of ink-column runs of an image, leftmost first. -/
def inkRuns (img : GrayImage) : List (Nat × Nat) :=
  runsGo (colHasBlack img) img.width img.width 0 none

/-- `[s, e]` is a maximal run of consecutive columns satisfying `p` inside an
image of width `w`: nonempty, inside the image, all ink, and not extendable on
either side. -/
def IsMaximalRun (p : Nat → Bool) (w s e : Nat) : Prop :=
  s ≤ e ∧ e < w ∧ (∀ x, s ≤ x → x ≤ e → p x = true) ∧
    (s = 0 ∨ p (s - 1) = false) ∧ (e = w - 1 ∨ p (e + 1) = false)

/-- The per-box crop loop inside `FindLetters`: a fresh image of the box's size
whose pixels are copied from the source image via `GrayAt`. -/
def cropBox (img : GrayImage) (box : Rect) : GrayImage :=
  { width := box.maxX - box.minX
    height := box.maxY - box.minY
    pixel := fun x y =>
      if x < box.maxX - box.minX ∧ y < box.maxY - box.minY then
        grayAt img (box.minX + x) (box.minY + y)
      else 0 }

/-- `MergeHorizontally` from the source.  `none` models a nil `*image.Gray`. -/
def MergeHorizontally : Option GrayImage → Option GrayImage → Except String GrayImage
  | none, _ => .error "input images cannot be nil"
  | some _, none => .error "input images cannot be nil"
  | some img1, some img2 =>
    if img1.height ≠ img2.height then .error "input images must have equal heights"
    else
      .ok { width := img1.width + img2.width
            height := img1.height
            pixel := fun x y =>
              if x < img1.width + img2.width ∧ y < img1.height then
                if x < img1.width then grayAt img1 x y
                else grayAt img2 (x - img1.width) y
              else 0 }

/-- Row-major serialization from `ExtractFeatures`: top-to-bottom, then left to
right, `'1'` for a black pixel (gray value `0`) and `'0'` otherwise. -/
def serializeRowMajor (img : GrayImage) : List Char :=
  (List.range img.height).flatMap fun y =>
    (List.range img.width).map fun x => if grayAt img x y = 0 then '1' else '0'

/-- The lowercase hexadecimal digits used by Go `encoding/hex`. -/
def hexDigits : List Char := "0123456789abcdef".data

/-- One byte encoded as two lowercase hex characters (`hex.EncodeToString`). -/
def hexEncodeByte (b : Fin 256) : List Char :=
  [hexDigits.getD (b.val / 16) '0', hexDigits.getD (b.val % 16) '0']

/-- `hex.EncodeToString` on a byte sequence. -/
def hexEncodeToString (bs : List (Fin 256)) : String :=
  String.mk (bs.flatMap hexEncodeByte)

/-- The fingerprint computed by `ExtractFeatures`: serialize, compress, hex.
The zlib compressor (`zlib.NewWriterLevel(..., zlib.BestCompression)` piped
into a `bytes.Buffer`) is an external library call and is modelled as the
function parameter `compress` from bit characters to bytes. -/
def fingerprint (compress : List Char → List (Fin 256)) (img : GrayImage) : String :=
  hexEncodeToString (compress (serializeRowMajor img))

/-- `ExtractFeatures` from the source.  Its Go error paths belong to the zlib
writer machinery (invalid level / failing sink) and cannot fire when writing
to a `bytes.Buffer` with the valid constant level, so the model always
succeeds. -/
def ExtractFeatures (compress : List Char → List (Fin 256)) (img : GrayImage) :
    Except String String :=
  .ok (fingerprint compress img)

/-- The letter crops of `FindLetters` before the count policy is applied:
binarize, segment, then crop one glyph image per box. -/
def lettersOf (g : GrayImage) : List GrayImage :=
  let grayImg := MonoChrome g MonoWeight
  (FindLetterBoxes grayImg MaximumLetterLength).map fun box => cropBox grayImg box

/-- Body of `FindLetters` after `image.Decode` and `Grayscale`: crop the glyph
images, replace them all by blanks when the count/width policy rejects the
segmentation, and fold the wrap-around 7-box case into 6 glyphs. -/
def FindLettersGray (g : GrayImage) : Except String (List GrayImage) :=
  let letters0 := lettersOf g
  let letters :=
    if (letters0.length == 6 && decide ((letters0.headD emptyGray).width < MinimumLetterLength))
        || (letters0.length != 6 && letters0.length != 7) then
      List.replicate 6 blankLetter
    else letters0
  if letters.length == 7 then
    match MergeHorizontally (some (letters.getD 6 emptyGray)) (some (letters.getD 0 emptyGray)) with
    | .error e => .error e
    | .ok merged => .ok ((letters.set 6 merged).drop 1)
  else
    .ok letters

/-- `FindLetters` from the source, starting from the decoded image. -/
def FindLetters (img : RGBAImage) : Except String (List GrayImage) :=
  FindLettersGray (Grayscale img)

/-- The per-letter loop of `Solve`: extract each letter's features and resolve
them through the dictionary `featureMap`, with `"-"` for an absent key;
a feature-extraction error aborts the loop. -/
def resolveAll (compress : List Char → List (Fin 256)) (featureMap : String → Option String) :
    List GrayImage → Except String (List String)
  | [] => .ok []
  | letter :: rest =>
    match ExtractFeatures compress letter with
    | .error e => .error e
    | .ok features =>
      match resolveAll compress featureMap rest with
      | .error e => .error e
      | .ok tail =>
        .ok ((match featureMap features with
              | some v => v
              | none => "-") :: tail)

/-- Body of `Solve` after `image.Decode`, on the grayscale image.  The Go
`featureMap` dictionary is initialized in a repository file outside `src/`
(the spec: an immutable fingerprint-to-character map), so it is a parameter. -/
def SolveGray (compress : List Char → List (Fin 256)) (featureMap : String → Option String)
    (g : GrayImage) : Except String String :=
  match FindLettersGray g with
  | .error e => .error e
  | .ok letters =>
    match resolveAll compress featureMap letters with
    | .error e => .error e
    | .ok result => .ok (String.join result)

/-- `Solve` from the source, starting from the decoded image. -/
def Solve (compress : List Char → List (Fin 256)) (featureMap : String → Option String)
    (img : RGBAImage) : Except String String :=
  SolveGray compress featureMap (Grayscale img)

deriving instance DecidableEq for Except

/-- Unwrap an `Except`-valued image, defaulting to the empty image. -/
def getOkG : Except String GrayImage → GrayImage
  | .ok m => m
  | .error _ => emptyGray

/-- Unwrap an `Except`-valued letter list, defaulting to the empty list. -/
def getOkL : Except String (List GrayImage) → List GrayImage
  | .ok l => l
  | .error _ => []

/-- Concrete 13×1 mask with seven single-column glyphs (columns 0,2,4,6,8,10,12). -/
def sevenRunImage : GrayImage := ⟨13, 1, fun x _ => if x % 2 == 0 then 0 else 255⟩

/-- Concrete 70×1 mask with one ink run spanning all 70 columns. -/
def wideRunImage : GrayImage := ⟨70, 1, fun _ _ => 0⟩

/-- Concrete 5×1 mask whose only ink columns are 1 and 2. -/
def smallRunImage : GrayImage := ⟨5, 1, fun x _ => if x == 1 || x == 2 then 0 else 255⟩

/-- Concrete 1×1 fully white decoded image. -/
def whitePixelImage : RGBAImage := ⟨1, 1, fun _ _ => ⟨65535, 65535, 65535, 65535⟩⟩

/-- Concrete 1×1 fully black decoded image. -/
def blackPixelImage : RGBAImage := ⟨1, 1, fun _ _ => ⟨0, 0, 0, 65535⟩⟩

/-- A concrete stand-in compressor mapping each bit character to one byte. -/
def bytePerBitCompress : List Char → List (Fin 256) :=
  fun l => l.map fun c => if c == '1' then (1 : Fin 256) else 0

/-- A concrete compressor discarding its input. -/
def emptyCompress : List Char → List (Fin 256) := fun _ => []

/-- A concrete dictionary holding only the fingerprint `"0101"`. -/
def dict0101 : String → Option String := fun f => if f == "0101" then some "A" else none

/-- The empty dictionary. -/
def emptyDict : String → Option String := fun _ => none

/-- Concrete 1×1 merge operand, all black. -/
def mergeInputA : GrayImage := ⟨1, 1, fun _ _ => 0⟩

/-- Concrete 2×1 merge operand, all white. -/
def mergeInputB : GrayImage := ⟨2, 1, fun _ _ => 255⟩

/-- Concrete 1×1 binary mask, all black. -/
def binaryPixelImage : GrayImage := ⟨1, 1, fun _ _ => 0⟩

/-- Concrete 2×1 gray image: black pixel then white pixel. -/
def twoPixelImage : GrayImage := ⟨2, 1, fun x _ => if x == 0 then 0 else 255⟩

/-- The same 2×1 pixel content as `twoPixelImage` with different out-of-bounds junk. -/
def twoPixelImageJunk : GrayImage :=
  ⟨2, 1, fun x y => if x == 0 && y == 0 then 0 else if x == 1 && y == 0 then 255 else 7⟩


/-! ## Characterization of the column scan -/

lemma fb_fold (p : Nat → Bool) (m h : Nat) :
    ∀ (n x : Nat) (st : Option Nat) (acc : List Rect) (w : Nat), w = x + n →
      (match (List.range' x n).foldl (fbStep p m h) (st, acc) with
        | (some s, boxes) => boxes ++ closeRun m h s (w - 1)
        | (none, boxes) => boxes) =
      acc ++ (runsGo p w n x st).flatMap (fun se => closeRun m h se.1 se.2) := by
  intro n
  induction n with
  | zero =>
    intro x st acc w hw
    subst hw
    cases st <;> simp [runsGo, List.range']
  | succ n ih =>
    intro x st acc w hw
    rw [List.range'_succ, List.foldl_cons]
    cases st with
    | none =>
      by_cases hp : p x = true
      · rw [show fbStep p m h (none, acc) x = (some x, acc) by simp [fbStep, hp]]
        rw [ih (x+1) (some x) acc w (by omega)]
        simp [runsGo, hp]
      · rw [show fbStep p m h (none, acc) x = (none, acc) by
          simp [fbStep, Bool.not_eq_true] at hp ⊢; simp [hp]]
        rw [ih (x+1) none acc w (by omega)]
        simp only [Bool.not_eq_true] at hp
        simp [runsGo, hp]
    | some s =>
      by_cases hp : p x = true
      · rw [show fbStep p m h (some s, acc) x = (some s, acc) by simp [fbStep, hp]]
        rw [ih (x+1) (some s) acc w (by omega)]
        simp [runsGo, hp]
      · simp only [Bool.not_eq_true] at hp
        rw [show fbStep p m h (some s, acc) x = (none, acc ++ closeRun m h s (x-1)) by
          simp [fbStep, hp]]
        rw [ih (x+1) none (acc ++ closeRun m h s (x-1)) w (by omega)]
        simp [runsGo, hp, List.append_assoc]

lemma findLetterBoxes_eq (img : GrayImage) (m : Nat) :
    FindLetterBoxes img m =
      (inkRuns img).flatMap (fun se => closeRun m img.height se.1 se.2) := by
  have h := fb_fold (colHasBlack img) m img.height img.width 0 none [] img.width (by omega)
  rw [← List.range_eq_range'] at h
  simpa [FindLetterBoxes, inkRuns] using h

lemma runsGo_sound (p : Nat → Bool) (w : Nat) :
    ∀ (n x : Nat) (st : Option Nat), x + n = w →
      (∀ s₀, st = some s₀ → s₀ < x ∧ (∀ i, s₀ ≤ i → i < x → p i = true) ∧
        (s₀ = 0 ∨ p (s₀ - 1) = false)) →
      (st = none → x = 0 ∨ p (x - 1) = false) →
      ∀ se ∈ runsGo p w n x st, IsMaximalRun p w se.1 se.2 := by
  intro n
  induction n with
  | zero =>
    intro x st hxw hsome _ se hse
    cases st with
    | none => simp [runsGo] at hse
    | some s₀ =>
      obtain ⟨h1, h2, h3⟩ := hsome s₀ rfl
      simp [runsGo] at hse
      subst hse
      refine ⟨by omega, by omega, ?_, h3, Or.inl rfl⟩
      intro i hi1 hi2
      exact h2 i hi1 (by omega)
  | succ n ih =>
    intro x st hxw hsome hnone se hse
    by_cases hp : p x = true
    · rw [show runsGo p w (n+1) x st = runsGo p w n (x+1) (some (st.getD x)) by
        simp [runsGo, hp]] at hse
      refine ih (x+1) (some (st.getD x)) (by omega) ?_ (by simp) se hse
      intro s₀ hs₀
      cases st with
      | none =>
        simp at hs₀
        subst hs₀
        exact ⟨by omega, fun i hi1 hi2 => by
          have : i = x := by omega
          subst this; exact hp, hnone rfl⟩
      | some s₁ =>
        simp at hs₀
        subst hs₀
        obtain ⟨h1, h2, h3⟩ := hsome s₁ rfl
        exact ⟨by omega, fun i hi1 hi2 => by
          by_cases hix : i = x
          · subst hix; exact hp
          · exact h2 i hi1 (by omega), h3⟩
    · simp only [Bool.not_eq_true] at hp
      cases st with
      | none =>
        rw [show runsGo p w (n+1) x none = runsGo p w n (x+1) none by simp [runsGo, hp]] at hse
        exact ih (x+1) none (by omega) (by simp) (fun _ => Or.inr hp) se hse
      | some s₀ =>
        rw [show runsGo p w (n+1) x (some s₀) = (s₀, x-1) :: runsGo p w n (x+1) none by
          simp [runsGo, hp]] at hse
        obtain ⟨h1, h2, h3⟩ := hsome s₀ rfl
        rcases List.mem_cons.mp hse with hhd | htl
        · subst hhd
          refine ⟨by omega, by omega, ?_, h3, Or.inr (by
            have : x - 1 + 1 = x := by omega
            rw [this]; exact hp)⟩
          intro i hi1 hi2
          exact h2 i hi1 (by omega)
        · exact ih (x+1) none (by omega) (by simp) (fun _ => Or.inr hp) se htl

lemma inkRuns_sound (img : GrayImage) :
    ∀ se ∈ inkRuns img, IsMaximalRun (colHasBlack img) img.width se.1 se.2 :=
  runsGo_sound (colHasBlack img) img.width img.width 0 none (by omega)
    (by simp) (fun _ => Or.inl rfl)

lemma runsGo_open (p : Nat → Bool) (w : Nat) :
    ∀ (n x s e : Nat), x + n = w → s < x → x ≤ e + 1 →
      IsMaximalRun p w s e → (s, e) ∈ runsGo p w n x (some s) := by
  intro n
  induction n with
  | zero =>
    intro x s e hxw hsx hxe hmax
    obtain ⟨h1, h2, h3, h4, h5⟩ := hmax
    have : e = w - 1 := by omega
    subst this
    simp [runsGo]
  | succ n ih =>
    intro x s e hxw hsx hxe hmax
    obtain ⟨h1, h2, h3, h4, h5⟩ := hmax
    by_cases hxe' : x ≤ e
    · have hp : p x = true := h3 x (by omega) hxe'
      rw [show runsGo p w (n+1) x (some s) = runsGo p w n (x+1) (some s) by simp [runsGo, hp]]
      exact ih (x+1) s e (by omega) (by omega) (by omega) ⟨h1, h2, h3, h4, h5⟩
    · have hxeq : x = e + 1 := by omega
      have hp : p x = false := by
        rcases h5 with h5 | h5
        · omega
        · rw [hxeq]; exact h5
      rw [show runsGo p w (n+1) x (some s) = (s, x-1) :: runsGo p w n (x+1) none by
        simp [runsGo, hp]]
      have : x - 1 = e := by omega
      rw [this]
      exact List.mem_cons_self _ _

lemma runsGo_future (p : Nat → Bool) (w : Nat) :
    ∀ (n x : Nat) (st : Option Nat), x + n = w →
      (∀ s₀, st = some s₀ → s₀ < x ∧ (∀ i, s₀ ≤ i → i < x → p i = true)) →
      ∀ s e, x ≤ s → IsMaximalRun p w s e → (s, e) ∈ runsGo p w n x st := by
  intro n
  induction n with
  | zero =>
    intro x st hxw _ s e hxs hmax
    obtain ⟨h1, h2, _⟩ := hmax
    omega
  | succ n ih =>
    intro x st hxw hsome s e hxs hmax
    have hmax' := hmax
    obtain ⟨h1, h2, h3, h4, h5⟩ := hmax
    by_cases hp : p x = true
    · rw [show runsGo p w (n+1) x st = runsGo p w n (x+1) (some (st.getD x)) by
        simp [runsGo, hp]]
      by_cases hxs' : x = s
      · have hst : st = none := by
          cases st with
          | none => rfl
          | some s₀ =>
            obtain ⟨hs₀, hrun⟩ := hsome s₀ rfl
            rcases h4 with h4 | h4
            · omega
            · have : p (s - 1) = true := hrun (s - 1) (by omega) (by omega)
              rw [h4] at this
              exact absurd this (by simp)
        subst hst hxs'
        simp only [Option.getD_none]
        exact runsGo_open p w n (x+1) x e (by omega) (by omega) (by omega) hmax'
      · refine ih (x+1) (some (st.getD x)) (by omega) ?_ s e (by omega) hmax'
        intro s₀ hs₀
        cases st with
        | none =>
          simp at hs₀
          subst hs₀
          exact ⟨by omega, fun i hi1 hi2 => by
            have : i = x := by omega
            subst this; exact hp⟩
        | some s₁ =>
          simp at hs₀
          subst hs₀
          obtain ⟨ha, hb⟩ := hsome s₁ rfl
          exact ⟨by omega, fun i hi1 hi2 => by
            by_cases hix : i = x
            · subst hix; exact hp
            · exact hb i hi1 (by omega)⟩
    · simp only [Bool.not_eq_true] at hp
      have hxs' : x < s := by
        rcases Nat.lt_or_ge x s with h | h
        · exact h
        · have : x = s := by omega
          subst this
          have : p x = true := h3 x (by omega) (by omega)
          rw [hp] at this
          exact absurd this (by simp)
      cases st with
      | none =>
        rw [show runsGo p w (n+1) x none = runsGo p w n (x+1) none by simp [runsGo, hp]]
        exact ih (x+1) none (by omega) (by simp) s e (by omega) hmax'
      | some s₀ =>
        rw [show runsGo p w (n+1) x (some s₀) = (s₀, x-1) :: runsGo p w n (x+1) none by
          simp [runsGo, hp]]
        exact List.mem_cons_of_mem _ (ih (x+1) none (by omega) (by simp) s e (by omega) hmax')

lemma inkRuns_complete (img : GrayImage) :
    ∀ s e, IsMaximalRun (colHasBlack img) img.width s e → (s, e) ∈ inkRuns img :=
  fun s e hmax =>
    runsGo_future (colHasBlack img) img.width img.width 0 none (by omega)
      (by simp) s e (by omega) hmax

lemma runsGo_lb (p : Nat → Bool) (w : Nat) :
    ∀ (n x : Nat) (st : Option Nat), x + n = w →
      (∀ s₀, st = some s₀ → s₀ ≤ x) →
      ∀ se ∈ runsGo p w n x st,
        x ≤ se.2 + 1 ∧ (match st with | none => x ≤ se.1 | some s₀ => s₀ ≤ se.1) := by
  intro n
  induction n with
  | zero =>
    intro x st hxw hst se hse
    cases st with
    | none => simp [runsGo] at hse
    | some s₀ =>
      simp [runsGo] at hse
      subst hse
      exact ⟨by omega, le_refl _⟩
  | succ n ih =>
    intro x st hxw hst se hse
    by_cases hp : p x = true
    · rw [show runsGo p w (n+1) x st = runsGo p w n (x+1) (some (st.getD x)) by
        simp [runsGo, hp]] at hse
      have := ih (x+1) (some (st.getD x)) (by omega)
        (by intro s₀ h; cases st <;> simp at h <;> first
            | omega
            | (subst h; have := hst _ rfl; omega)) se hse
      obtain ⟨ha, hb⟩ := this
      cases st with
      | none => exact ⟨by omega, by simpa using hb⟩
      | some s₀ => exact ⟨by omega, by simpa using hb⟩
    · simp only [Bool.not_eq_true] at hp
      cases st with
      | none =>
        rw [show runsGo p w (n+1) x none = runsGo p w n (x+1) none by simp [runsGo, hp]] at hse
        have := ih (x+1) none (by omega) (by simp) se hse
        exact ⟨by omega, by have := this.2; simp at this ⊢; omega⟩
      | some s₀ =>
        rw [show runsGo p w (n+1) x (some s₀) = (s₀, x-1) :: runsGo p w n (x+1) none by
          simp [runsGo, hp]] at hse
        rcases List.mem_cons.mp hse with hhd | htl
        · subst hhd
          exact ⟨by omega, le_refl _⟩
        · have := ih (x+1) none (by omega) (by simp) se htl
          have h2 := this.2
          simp at h2
          have := hst s₀ rfl
          exact ⟨by omega, by omega⟩

lemma runsGo_pairwise (p : Nat → Bool) (w : Nat) :
    ∀ (n x : Nat) (st : Option Nat), x + n = w →
      (∀ s₀, st = some s₀ → s₀ ≤ x) →
      List.Pairwise (fun a b => a.2 < b.1) (runsGo p w n x st) := by
  intro n
  induction n with
  | zero =>
    intro x st _ _
    cases st <;> simp [runsGo]
  | succ n ih =>
    intro x st hxw hst
    by_cases hp : p x = true
    · rw [show runsGo p w (n+1) x st = runsGo p w n (x+1) (some (st.getD x)) by
        simp [runsGo, hp]]
      refine ih (x+1) (some (st.getD x)) (by omega) ?_
      intro s₀ h
      cases st with
      | none => simp at h; omega
      | some s₁ => simp at h; subst h; have := hst _ rfl; omega
    · simp only [Bool.not_eq_true] at hp
      cases st with
      | none =>
        rw [show runsGo p w (n+1) x none = runsGo p w n (x+1) none by simp [runsGo, hp]]
        exact ih (x+1) none (by omega) (by simp)
      | some s₀ =>
        rw [show runsGo p w (n+1) x (some s₀) = (s₀, x-1) :: runsGo p w n (x+1) none by
          simp [runsGo, hp]]
        refine List.Pairwise.cons ?_ (ih (x+1) none (by omega) (by simp))
        intro b hb
        have := runsGo_lb p w n (x+1) none (by omega) (by simp) b hb
        have h2 := this.2
        simp at h2
        omega

lemma inkRuns_pairwise (img : GrayImage) :
    List.Pairwise (fun a b => a.2 < b.1) (inkRuns img) :=
  runsGo_pairwise (colHasBlack img) img.width img.width 0 none (by omega) (by simp)

/-! ## Properties of the emitted boxes -/

lemma closeRun_shape (m h s e : Nat) :
    ∀ b ∈ closeRun m h s e, b.minY = 0 ∧ b.maxY = h := by
  intro b hb
  unfold closeRun at hb
  split at hb
  · simp at hb
    subst hb
    exact ⟨rfl, rfl⟩
  · simp at hb
    rcases hb with hb | hb <;> subst hb <;> exact ⟨rfl, rfl⟩

lemma closeRun_bounds (m h s e : Nat) (hse : s ≤ e) :
    ∀ b ∈ closeRun m h s e, s ≤ b.minX ∧ b.maxX ≤ e + 1 := by
  intro b hb
  unfold closeRun at hb
  split at hb
  · simp at hb
    subst hb
    exact ⟨Nat.le_refl s, Nat.le_refl (e + 1)⟩
  · simp at hb
    rcases hb with hb | hb <;> subst hb
    · constructor
      · show s ≤ s
        omega
      · show (s + e) / 2 + 1 ≤ e + 1
        omega
    · constructor
      · show s ≤ (s + e) / 2 + 1
        omega
      · show e + 1 ≤ e + 1
        omega

lemma closeRun_pairwise (m h s e : Nat) :
    List.Pairwise (fun b1 b2 => b1.maxX ≤ b2.minX) (closeRun m h s e) := by
  unfold closeRun
  split
  · simp
  · simp

lemma closeRun_small (m h s e : Nat) (hle : e - s + 1 ≤ m) :
    closeRun m h s e = [⟨s, 0, e + 1, h⟩] := by
  unfold closeRun
  rw [if_pos hle]

lemma closeRun_split (m h s e : Nat) (hgt : m < e - s + 1) :
    closeRun m h s e = [⟨s, 0, (s + e) / 2 + 1, h⟩, ⟨(s + e) / 2 + 1, 0, e + 1, h⟩] := by
  unfold closeRun
  rw [if_neg (by omega)]

lemma flatMap_closeRun_pairwise (m h : Nat) (runs : List (Nat × Nat))
    (hp : List.Pairwise (fun a b => a.2 < b.1) runs)
    (hne : ∀ se ∈ runs, se.1 ≤ se.2) :
    List.Pairwise (fun b1 b2 => b1.maxX ≤ b2.minX)
      (runs.flatMap (fun se => closeRun m h se.1 se.2)) := by
  induction runs with
  | nil => simp
  | cons r rest ih =>
    rw [List.flatMap_cons]
    rw [List.pairwise_append]
    refine ⟨closeRun_pairwise m h r.1 r.2,
      ih hp.of_cons (fun se hse => hne se (List.mem_cons_of_mem _ hse)), ?_⟩
    intro b1 hb1 b2 hb2
    obtain ⟨r2, hr2, hb2'⟩ := List.mem_flatMap.mp hb2
    have hb1b := closeRun_bounds m h r.1 r.2 (hne r (List.mem_cons_self _ _)) b1 hb1
    have hb2b := closeRun_bounds m h r2.1 r2.2 (hne r2 (List.mem_cons_of_mem _ hr2)) b2 hb2'
    have hlt := (List.pairwise_cons.mp hp).1 r2 hr2
    omega

lemma findLetterBoxes_pairwise (img : GrayImage) (m : Nat) :
    List.Pairwise (fun b1 b2 => b1.maxX ≤ b2.minX) (FindLetterBoxes img m) := by
  rw [findLetterBoxes_eq]
  exact flatMap_closeRun_pairwise m img.height (inkRuns img) (inkRuns_pairwise img)
    (fun se hse => (inkRuns_sound img se hse).1)

lemma findLetterBoxes_shape (img : GrayImage) (m : Nat) :
    ∀ b ∈ FindLetterBoxes img m, b.minY = 0 ∧ b.maxY = img.height := by
  intro b hb
  rw [findLetterBoxes_eq] at hb
  obtain ⟨se, _, hb'⟩ := List.mem_flatMap.mp hb
  exact closeRun_shape m img.height se.1 se.2 b hb'

/-! ## Properties of the letter pipeline -/

lemma lettersOf_height (g : GrayImage) :
    ∀ l ∈ lettersOf g, l.height = g.height := by
  intro l hl
  unfold lettersOf at hl
  obtain ⟨b, hb, rfl⟩ := List.mem_map.mp hl
  have := findLetterBoxes_shape (MonoChrome g MonoWeight) MaximumLetterLength b hb
  show b.maxY - b.minY = g.height
  have hh : (MonoChrome g MonoWeight).height = g.height := rfl
  omega

lemma lettersOf_length (g : GrayImage) :
    (lettersOf g).length =
      (FindLetterBoxes (MonoChrome g MonoWeight) MaximumLetterLength).length := by
  unfold lettersOf
  exact List.length_map _ _

lemma findLettersGray_blank (g : GrayImage)
    (hc : ((lettersOf g).length = 6 ∧
            ((lettersOf g).headD emptyGray).width < MinimumLetterLength)
        ∨ ((lettersOf g).length ≠ 6 ∧ (lettersOf g).length ≠ 7)) :
    FindLettersGray g = .ok (List.replicate 6 blankLetter) := by
  unfold FindLettersGray
  have hcond : ((lettersOf g).length == 6 &&
      decide (((lettersOf g).headD emptyGray).width < MinimumLetterLength)
      || ((lettersOf g).length != 6 && (lettersOf g).length != 7)) = true := by
    rcases hc with ⟨h1, h2⟩ | ⟨h1, h2⟩
    · rw [List.headD_eq_head?] at h2
      simp [h1, h2]
    · simp [h1, h2]
  simp only [hcond, if_true]
  simp

lemma findLettersGray_six (g : GrayImage)
    (h6 : (lettersOf g).length = 6)
    (hw : MinimumLetterLength ≤ ((lettersOf g).headD emptyGray).width) :
    FindLettersGray g = .ok (lettersOf g) := by
  unfold FindLettersGray
  have hcond : ((lettersOf g).length == 6 &&
      decide (((lettersOf g).headD emptyGray).width < MinimumLetterLength)
      || ((lettersOf g).length != 6 && (lettersOf g).length != 7)) = false := by
    rw [List.headD_eq_head?] at hw
    simp [h6]
    omega
  simp only [hcond, if_false, Bool.false_eq_true]
  simp [h6]

lemma findLettersGray_seven (g : GrayImage) (h7 : (lettersOf g).length = 7) :
    ∃ merged,
      MergeHorizontally (some ((lettersOf g).getD 6 emptyGray))
          (some ((lettersOf g).getD 0 emptyGray)) = .ok merged ∧
      FindLettersGray g = .ok (((lettersOf g).set 6 merged).drop 1) ∧
      merged.width = ((lettersOf g).getD 6 emptyGray).width
        + ((lettersOf g).getD 0 emptyGray).width ∧
      merged.height = ((lettersOf g).getD 6 emptyGray).height := by
  have h6lt : 6 < (lettersOf g).length := by omega
  have h0lt : 0 < (lettersOf g).length := by omega
  have hA : ((lettersOf g).getD 6 emptyGray).height = g.height := by
    rw [List.getD_eq_getElem _ _ h6lt]
    exact lettersOf_height g _ (List.getElem_mem h6lt)
  have hB : ((lettersOf g).getD 0 emptyGray).height = g.height := by
    rw [List.getD_eq_getElem _ _ h0lt]
    exact lettersOf_height g _ (List.getElem_mem h0lt)
  set A := (lettersOf g).getD 6 emptyGray with hAdef
  set B := (lettersOf g).getD 0 emptyGray with hBdef
  have hmerge : MergeHorizontally (some A) (some B) =
      .ok ⟨A.width + B.width, A.height, fun x y =>
        if x < A.width + B.width ∧ y < A.height then
          (if x < A.width then grayAt A x y else grayAt B (x - A.width) y)
        else 0⟩ := by
    show (if A.height ≠ B.height then Except.error "input images must have equal heights"
          else _) = _
    rw [if_neg (by omega)]
  refine ⟨_, hmerge, ?_, rfl, rfl⟩
  unfold FindLettersGray
  have hcond : ((lettersOf g).length == 6 &&
      decide (((lettersOf g).headD emptyGray).width < MinimumLetterLength)
      || ((lettersOf g).length != 6 && (lettersOf g).length != 7)) = false := by
    simp [h7]
  simp only [hcond, Bool.false_eq_true, if_false]
  rw [show ((lettersOf g).length == 7) = true by simp [h7]]
  simp only [if_true]
  rw [← hAdef, ← hBdef, hmerge]

lemma findLettersGray_never_error (g : GrayImage) :
    ∃ letters, FindLettersGray g = .ok letters ∧ letters.length = 6 := by
  by_cases h7 : (lettersOf g).length = 7
  · obtain ⟨merged, _, hout, _, _⟩ := findLettersGray_seven g h7
    refine ⟨_, hout, ?_⟩
    simp [h7]
  · by_cases h6 : (lettersOf g).length = 6
    · by_cases hw : ((lettersOf g).headD emptyGray).width < MinimumLetterLength
      · exact ⟨_, findLettersGray_blank g (Or.inl ⟨h6, hw⟩), by simp⟩
      · exact ⟨_, findLettersGray_six g h6 (by omega), h6⟩
    · exact ⟨_, findLettersGray_blank g (Or.inr ⟨h6, h7⟩), by simp⟩

lemma findLettersGray_ok_length (g : GrayImage) (letters : List GrayImage)
    (h : FindLettersGray g = .ok letters) : letters.length = 6 := by
  obtain ⟨l', hl', hlen⟩ := findLettersGray_never_error g
  rw [hl'] at h
  have : l' = letters := by simpa using h
  rw [← this]
  exact hlen

/-! ## Properties of Solve -/

lemma resolveAll_eq (c : List Char → List (Fin 256)) (fm : String → Option String) :
    ∀ ls : List GrayImage,
      resolveAll c fm ls = .ok (ls.map fun l => (fm (fingerprint c l)).getD "-") := by
  intro ls
  induction ls with
  | nil => rfl
  | cons a t ih =>
    rw [show resolveAll c fm (a :: t) =
      (match resolveAll c fm t with
        | .error e => .error e
        | .ok tail =>
          .ok ((match fm (fingerprint c a) with
                | some v => v
                | none => "-") :: tail)) by rfl]
    rw [ih]
    simp only [List.map_cons]
    cases hfm : fm (fingerprint c a) <;> simp [hfm]

lemma solveGray_eq (c : List Char → List (Fin 256)) (fm : String → Option String)
    (g : GrayImage) (letters : List GrayImage) (h : FindLettersGray g = .ok letters) :
    SolveGray c fm g =
      .ok (String.join (letters.map fun l => (fm (fingerprint c l)).getD "-")) := by
  have h1 : SolveGray c fm g =
      match resolveAll c fm letters with
      | .error e => .error e
      | .ok result => .ok (String.join result) := by
    unfold SolveGray
    rw [h]
  rw [h1, resolveAll_eq]

lemma foldl_append_length :
    ∀ (l : List String) (acc : String),
      (l.foldl (· ++ ·) acc).length = acc.length + (l.map String.length).sum := by
  intro l
  induction l with
  | nil => simp
  | cons a t ih =>
    intro acc
    rw [List.foldl_cons, ih, List.map_cons, List.sum_cons]
    simp [String.length_append]
    omega

lemma join_length (l : List String) :
    (String.join l).length = (l.map String.length).sum := by
  show (l.foldl (· ++ ·) "").length = (l.map String.length).sum
  rw [foldl_append_length]
  simp

lemma sum_lengths_one (l : List String) (h : ∀ s ∈ l, s.length = 1) :
    (l.map String.length).sum = l.length := by
  induction l with
  | nil => simp
  | cons a t ih =>
    rw [List.map_cons, List.sum_cons, ih (fun s hs => h s (List.mem_cons_of_mem _ hs))]
    rw [h a (List.mem_cons_self _ _)]
    simp [Nat.add_comm]

/-! ## Properties of the fingerprint serialization -/

lemma flatMapRange_length (f : Nat → List Char) (w : Nat) (hw : ∀ y, (f y).length = w) :
    ∀ h, ((List.range h).flatMap f).length = h * w := by
  intro h
  induction h with
  | zero => simp
  | succ h ih =>
    rw [List.range_succ, List.flatMap_append, List.length_append, ih]
    simp [hw]
    ring

lemma flatMapRange_getD (f : Nat → List Char) (w : Nat) (hw : ∀ y, (f y).length = w) :
    ∀ (h y x : Nat) (d : Char), y < h → x < w →
      ((List.range h).flatMap f).getD (y * w + x) d = (f y).getD x d := by
  intro h
  induction h with
  | zero => omega
  | succ h ih =>
    intro y x d hy hx
    rw [List.range_succ, List.flatMap_append]
    by_cases hyh : y < h
    · rw [List.getD_append _ _ _ _ (by rw [flatMapRange_length f w hw h]; calc
        y * w + x < y * w + w := by omega
        _ ≤ h * w := by
          have : y + 1 ≤ h := hyh
          calc y * w + w = (y + 1) * w := by ring
          _ ≤ h * w := Nat.mul_le_mul_right w this)]
      exact ih y x d hyh hx
    · have hyeq : y = h := by omega
      subst hyeq
      rw [List.getD_append_right _ _ _ _ (by rw [flatMapRange_length f w hw]; omega)]
      rw [flatMapRange_length f w hw]
      have : y * w + x - y * w = x := by omega
      rw [this]
      simp

lemma serialize_length (img : GrayImage) :
    (serializeRowMajor img).length = img.width * img.height := by
  unfold serializeRowMajor
  rw [flatMapRange_length _ img.width (fun y => by simp)]
  ring

lemma serialize_getD (img : GrayImage) (x y : Nat) (d : Char)
    (hx : x < img.width) (hy : y < img.height) :
    (serializeRowMajor img).getD (y * img.width + x) d =
      (if grayAt img x y = 0 then '1' else '0') := by
  unfold serializeRowMajor
  rw [flatMapRange_getD _ img.width (fun y => by simp) img.height y x d hy hx]
  rw [List.getD_eq_getElem _ _ (by simpa)]
  simp

lemma flatMap_congr_local {α β : Type} (l : List α) (f g : α → List β)
    (h : ∀ a ∈ l, f a = g a) : l.flatMap f = l.flatMap g := by
  induction l with
  | nil => rfl
  | cons a t ih =>
    rw [List.flatMap_cons, List.flatMap_cons, h a (List.mem_cons_self _ _),
      ih (fun b hb => h b (List.mem_cons_of_mem _ hb))]

lemma serialize_congr (a b : GrayImage) (hw : a.width = b.width) (hh : a.height = b.height)
    (hp : ∀ x y, x < a.width → y < a.height → a.pixel x y = b.pixel x y) :
    serializeRowMajor a = serializeRowMajor b := by
  unfold serializeRowMajor
  rw [hh, hw]
  refine flatMap_congr_local _ _ _ ?_
  intro y hy
  refine List.map_congr_left ?_
  intro x hx
  have hxw : x < b.width := List.mem_range.mp hx
  have hyh : y < b.height := List.mem_range.mp hy
  have : grayAt a x y = grayAt b x y := by
    unfold grayAt
    rw [if_pos (by omega), if_pos ⟨hxw, hyh⟩]
    exact hp x y (by omega) (by omega)
  rw [this]

lemma fingerprint_hex (c : List Char → List (Fin 256)) (img : GrayImage) :
    ∀ ch ∈ (fingerprint c img).data, ch ∈ hexDigits := by
  intro ch hch
  unfold fingerprint hexEncodeToString at hch
  have : ch ∈ (c (serializeRowMajor img)).flatMap hexEncodeByte := hch
  obtain ⟨b, _, hb⟩ := List.mem_flatMap.mp this
  unfold hexEncodeByte at hb
  rcases List.mem_cons.mp hb with hb1 | hb2
  · subst hb1
    rw [List.getD_eq_getElem _ _ (show b.val / 16 < hexDigits.length by
      have := b.isLt
      show b.val / 16 < 16
      omega)]
    exact List.getElem_mem _
  · have hb1 : ch = hexDigits.getD (b.val % 16) '0' := by simpa using hb2
    subst hb1
    rw [List.getD_eq_getElem _ _ (show b.val % 16 < hexDigits.length by
      show b.val % 16 < 16
      omega)]
    exact List.getElem_mem _

/-! ## Box widths of the first letter -/

lemma lettersOf_headD_width (g : GrayImage)
    (hne : FindLetterBoxes (MonoChrome g MonoWeight) MaximumLetterLength ≠ []) :
    ((lettersOf g).headD emptyGray).width =
      ((FindLetterBoxes (MonoChrome g MonoWeight) MaximumLetterLength).headD
          ⟨0, 0, 0, 0⟩).maxX -
      ((FindLetterBoxes (MonoChrome g MonoWeight) MaximumLetterLength).headD
          ⟨0, 0, 0, 0⟩).minX := by
  unfold lettersOf
  cases hbx : FindLetterBoxes (MonoChrome g MonoWeight) MaximumLetterLength with
  | nil => exact absurd hbx hne
  | cons b t => simp [hbx, cropBox]

/-! ## Claim theorems -/

/-- Claim C5: for every mask, `FindLetterBoxes` returns, in left-to-right order
with no two boxes overlapping, one full-image-height bounding box per maximal
run of consecutive ink columns when the run's width is at most 33, and splits a
wider run at its midpoint into two adjacent boxes of near-equal width (differing
by at most one column); a run still open at the right edge is closed and
processed identically (the run characterization covers right-edge runs). -/
theorem findLetterBoxes_spec (img : GrayImage) :
    FindLetterBoxes img MaximumLetterLength =
      (inkRuns img).flatMap (fun se => closeRun MaximumLetterLength img.height se.1 se.2)
    ∧ (∀ se ∈ inkRuns img, IsMaximalRun (colHasBlack img) img.width se.1 se.2)
    ∧ (∀ s e, IsMaximalRun (colHasBlack img) img.width s e → (s, e) ∈ inkRuns img)
    ∧ (∀ s e, s ≤ e → e - s + 1 ≤ MaximumLetterLength →
        closeRun MaximumLetterLength img.height s e = [⟨s, 0, e + 1, img.height⟩])
    ∧ (∀ s e, s ≤ e → MaximumLetterLength < e - s + 1 →
        closeRun MaximumLetterLength img.height s e =
          [⟨s, 0, (s + e) / 2 + 1, img.height⟩, ⟨(s + e) / 2 + 1, 0, e + 1, img.height⟩]
        ∧ ((s + e) / 2 + 1 - s) + (e + 1 - ((s + e) / 2 + 1)) = e - s + 1
        ∧ ((s + e) / 2 + 1 - s) - (e + 1 - ((s + e) / 2 + 1)) ≤ 1
        ∧ (e + 1 - ((s + e) / 2 + 1)) - ((s + e) / 2 + 1 - s) ≤ 1)
    ∧ List.Pairwise (fun b1 b2 => b1.maxX ≤ b2.minX)
        (FindLetterBoxes img MaximumLetterLength) := by
  refine ⟨findLetterBoxes_eq img MaximumLetterLength, inkRuns_sound img,
    inkRuns_complete img, ?_, ?_, findLetterBoxes_pairwise img MaximumLetterLength⟩
  · intro s e _ hle
    exact closeRun_small _ _ _ _ hle
  · intro s e hse hgt
    exact ⟨closeRun_split _ _ _ _ hgt, by omega, by omega, by omega⟩

/-- Witness for C5 at a concrete mask with one run over columns 1-2, plus the
split shape of `closeRun` on a concrete 38-column run. -/
theorem findLetterBoxes_spec_witness :
    (1, 2) ∈ inkRuns smallRunImage
    ∧ IsMaximalRun (colHasBlack smallRunImage) smallRunImage.width 1 2
    ∧ closeRun MaximumLetterLength smallRunImage.height 3 40 =
        [⟨3, 0, 22, smallRunImage.height⟩, ⟨22, 0, 41, smallRunImage.height⟩] :=
  ⟨by decide, (findLetterBoxes_spec smallRunImage).2.1 (1, 2) (by decide),
   ((findLetterBoxes_spec smallRunImage).2.2.2.2.1 3 40 (by decide) (by decide)).1⟩

/-- Claim C10: the midpoint split is applied at most once per run; a single
maximal ink run of width more than `2 * MaximumLetterLength = 66` yields exactly
two boxes whose widths differ by at most one and sum to the run width, at least
one of which is wider than 33. -/
theorem oversizedRun_single_split (img : GrayImage) (s e : Nat)
    (hrun : inkRuns img = [(s, e)])
    (hwide : 2 * MaximumLetterLength < e - s + 1) :
    FindLetterBoxes img MaximumLetterLength =
      [⟨s, 0, (s + e) / 2 + 1, img.height⟩, ⟨(s + e) / 2 + 1, 0, e + 1, img.height⟩]
    ∧ IsMaximalRun (colHasBlack img) img.width s e
    ∧ ((s + e) / 2 + 1 - s) + (e + 1 - ((s + e) / 2 + 1)) = e - s + 1
    ∧ ((s + e) / 2 + 1 - s) - (e + 1 - ((s + e) / 2 + 1)) ≤ 1
    ∧ (e + 1 - ((s + e) / 2 + 1)) - ((s + e) / 2 + 1 - s) ≤ 1
    ∧ MaximumLetterLength < (s + e) / 2 + 1 - s := by
  have h33 : MaximumLetterLength = 33 := rfl
  rw [h33] at hwide
  have hmax : IsMaximalRun (colHasBlack img) img.width s e :=
    inkRuns_sound img (s, e) (by rw [hrun]; exact List.mem_cons_self _ _)
  have hse : s ≤ e := hmax.1
  have heq : FindLetterBoxes img MaximumLetterLength =
      closeRun MaximumLetterLength img.height s e := by
    rw [findLetterBoxes_eq, hrun]
    simp
  rw [heq, closeRun_split _ _ _ _ (by rw [h33]; omega)]
  refine ⟨rfl, hmax, by omega, by omega, by omega, by rw [h33]; omega⟩

/-- Witness for C10 at a concrete 70-column run: two boxes of width 35 each. -/
theorem oversizedRun_single_split_witness :
    inkRuns wideRunImage = [(0, 69)]
    ∧ 2 * MaximumLetterLength < 69 - 0 + 1
    ∧ FindLetterBoxes wideRunImage MaximumLetterLength =
        [⟨0, 0, 35, wideRunImage.height⟩, ⟨35, 0, 70, wideRunImage.height⟩]
    ∧ MaximumLetterLength < 35 - 0 := by
  have h := oversizedRun_single_split wideRunImage 0 69 (by decide) (by decide)
  exact ⟨by decide, by decide, h.1, h.2.2.2.2.2⟩

/-- Claim C6: `MergeHorizontally(a, b)` returns an error exactly when an input
is nil or the heights differ; otherwise the result has width `width a + width b`
and the common height, `a`'s pixels in columns `[0, width a)` and `b`'s pixels
in columns `[width a, width a + width b)`. -/
theorem mergeHorizontally_spec (a b : Option GrayImage) :
    ((∃ err, MergeHorizontally a b = .error err) ↔
      (a = none ∨ b = none ∨
        ∃ a' b', a = some a' ∧ b = some b' ∧ a'.height ≠ b'.height))
    ∧ (∀ a' b' m, a = some a' → b = some b' → MergeHorizontally a b = .ok m →
        m.width = a'.width + b'.width ∧ m.height = a'.height ∧ a'.height = b'.height ∧
        (∀ x y, x < a'.width → y < m.height → m.pixel x y = grayAt a' x y) ∧
        (∀ x y, a'.width ≤ x → x < a'.width + b'.width → y < m.height →
          m.pixel x y = grayAt b' (x - a'.width) y)) := by
  cases a with
  | none =>
    refine ⟨⟨fun _ => Or.inl rfl, fun _ => ⟨_, rfl⟩⟩, ?_⟩
    intro a' b' m ha
    exact absurd ha (by simp)
  | some a' =>
    cases b with
    | none =>
      refine ⟨⟨fun _ => Or.inr (Or.inl rfl), fun _ => ⟨_, rfl⟩⟩, ?_⟩
      intro a'' b'' m _ hb
      exact absurd hb (by simp)
    | some b' =>
      have hred : MergeHorizontally (some a') (some b') =
          (if a'.height ≠ b'.height then
            Except.error "input images must have equal heights"
          else
            .ok { width := a'.width + b'.width
                  height := a'.height
                  pixel := fun x y =>
                    if x < a'.width + b'.width ∧ y < a'.height then
                      if x < a'.width then grayAt a' x y
                      else grayAt b' (x - a'.width) y
                    else 0 }) := rfl
      by_cases hne : a'.height = b'.height
      · constructor
        · constructor
          · intro ⟨err, herr⟩
            rw [hred, if_neg (by omega)] at herr
            exact absurd herr (by simp)
          · intro hbad
            rcases hbad with h | h | ⟨a'', b'', ha, hb, hne'⟩
            · exact absurd h (by simp)
            · exact absurd h (by simp)
            · have ha' : a'' = a' := by simpa using ha.symm
              have hb' : b'' = b' := by simpa using hb.symm
              rw [ha', hb'] at hne'
              exact absurd hne hne'
        · intro a'' b'' m ha hb hok
          have ha' : a'' = a' := by simpa using ha.symm
          have hb' : b'' = b' := by simpa using hb.symm
          rw [ha', hb']
          rw [hred, if_neg (by omega)] at hok
          have hm : m = { width := a'.width + b'.width
                          height := a'.height
                          pixel := fun x y =>
                            if x < a'.width + b'.width ∧ y < a'.height then
                              if x < a'.width then grayAt a' x y
                              else grayAt b' (x - a'.width) y
                            else 0 } := by
            simpa using hok.symm
          subst hm
          refine ⟨rfl, rfl, hne, ?_, ?_⟩
          · intro x y hx hy
            show (if x < a'.width + b'.width ∧ y < a'.height then
                  if x < a'.width then grayAt a' x y
                  else grayAt b' (x - a'.width) y else 0) = grayAt a' x y
            rw [if_pos ⟨by omega, hy⟩, if_pos hx]
          · intro x y hx1 hx2 hy
            show (if x < a'.width + b'.width ∧ y < a'.height then
                  if x < a'.width then grayAt a' x y
                  else grayAt b' (x - a'.width) y else 0) = grayAt b' (x - a'.width) y
            rw [if_pos ⟨hx2, hy⟩, if_neg (by omega)]
      · constructor
        · refine ⟨fun _ => Or.inr (Or.inr ⟨a', b', rfl, rfl, hne⟩),
            fun _ => ⟨"input images must have equal heights", ?_⟩⟩
          rw [hred, if_pos (by omega)]
        · intro a'' b'' m ha hb hok
          have ha' : a'' = a' := by simpa using ha.symm
          have hb' : b'' = b' := by simpa using hb.symm
          rw [hred, if_pos (by omega)] at hok
          exact absurd hok (by simp)

/-- Witness for C6 at a concrete 1×1 and 2×1 pair of equal height. -/
theorem mergeHorizontally_spec_witness :
    (getOkG (MergeHorizontally (some mergeInputA) (some mergeInputB))).width = 3
    ∧ (getOkG (MergeHorizontally (some mergeInputA) (some mergeInputB))).height = 1
    ∧ (getOkG (MergeHorizontally (some mergeInputA) (some mergeInputB))).pixel 0 0 =
        grayAt mergeInputA 0 0
    ∧ (getOkG (MergeHorizontally (some mergeInputA) (some mergeInputB))).pixel 2 0 =
        grayAt mergeInputB 1 0 := by
  have h := (mergeHorizontally_spec (some mergeInputA) (some mergeInputB)).2
    mergeInputA mergeInputB (getOkG (MergeHorizontally (some mergeInputA) (some mergeInputB)))
    rfl rfl rfl
  exact ⟨h.1, h.2.1, h.2.2.2.1 0 0 (by decide) (by decide),
    h.2.2.2.2 2 0 (by decide) (by decide) (by decide)⟩

/-- Claim C8: thresholding is idempotent on binary masks; applying `MonoChrome`
with a threshold strictly between the two levels to an image whose pixels are
all 0 or 255 leaves the pixel content unchanged. -/
theorem monoChrome_idempotent_on_binary (img : GrayImage) (t : Nat)
    (h0 : 0 < t) (h255 : t < 255)
    (hbin : ∀ x y, x < img.width → y < img.height →
      img.pixel x y = 0 ∨ img.pixel x y = 255) :
    (MonoChrome img t).width = img.width ∧ (MonoChrome img t).height = img.height ∧
    ∀ x y, x < img.width → y < img.height →
      (MonoChrome img t).pixel x y = img.pixel x y := by
  refine ⟨rfl, rfl, ?_⟩
  intro x y hx hy
  show (if x < img.width ∧ y < img.height then
        if img.pixel x y ≤ t then 0 else 255 else 0) = img.pixel x y
  rw [if_pos ⟨hx, hy⟩]
  rcases hbin x y hx hy with h | h <;> rw [h]
  · rw [if_pos (by omega)]
  · rw [if_neg (by omega)]

/-- Witness for C8 at a concrete all-black 1×1 binary mask and threshold 1. -/
theorem monoChrome_idempotent_on_binary_witness :
    (0 : Nat) < 1 ∧ (1 : Nat) < 255
    ∧ (MonoChrome binaryPixelImage 1).pixel 0 0 = binaryPixelImage.pixel 0 0
    ∧ binaryPixelImage.pixel 0 0 = 0 :=
  ⟨by decide, by decide,
   (monoChrome_idempotent_on_binary binaryPixelImage 1 (by decide) (by decide)
     (fun x y _ _ => Or.inl rfl)).2.2 0 0 (by decide) (by decide),
   rfl⟩

/-- Claim C2 (amended): when segmentation yields a box count outside {6, 7}, or
exactly 6 boxes whose first box is narrower than 14 columns, `FindLetters`
discards all boxes and returns six identical blank placeholder glyph images of
fixed size 200×70 that are entirely black (`image.NewGray` zero-initializes its
buffer, so every placeholder pixel has gray value 0, not white). -/
theorem blankFallback (img : RGBAImage)
    (hc : (((FindLetterBoxes (MonoChrome (Grayscale img) MonoWeight)
              MaximumLetterLength).length ≠ 6
          ∧ (FindLetterBoxes (MonoChrome (Grayscale img) MonoWeight)
              MaximumLetterLength).length ≠ 7)
        ∨ ((FindLetterBoxes (MonoChrome (Grayscale img) MonoWeight)
              MaximumLetterLength).length = 6
          ∧ ((FindLetterBoxes (MonoChrome (Grayscale img) MonoWeight)
              MaximumLetterLength).headD ⟨0, 0, 0, 0⟩).maxX
            - ((FindLetterBoxes (MonoChrome (Grayscale img) MonoWeight)
              MaximumLetterLength).headD ⟨0, 0, 0, 0⟩).minX < MinimumLetterLength))) :
    FindLetters img = .ok (List.replicate 6 blankLetter)
    ∧ (List.replicate 6 blankLetter).length = 6
    ∧ blankLetter.width = 200 ∧ blankLetter.height = 70
    ∧ (∀ x y, blankLetter.pixel x y = 0) := by
  have hc' : ((lettersOf (Grayscale img)).length = 6 ∧
      ((lettersOf (Grayscale img)).headD emptyGray).width < MinimumLetterLength)
      ∨ ((lettersOf (Grayscale img)).length ≠ 6 ∧ (lettersOf (Grayscale img)).length ≠ 7) := by
    rw [lettersOf_length]
    rcases hc with ⟨h1, h2⟩ | ⟨h1, h2⟩
    · exact Or.inr ⟨h1, h2⟩
    · refine Or.inl ⟨h1, ?_⟩
      rw [lettersOf_headD_width _ (by intro hnil; rw [hnil] at h1; simp at h1)]
      exact h2
  exact ⟨findLettersGray_blank _ hc', rfl, rfl, rfl, fun _ _ => rfl⟩

/-- Counterexample to C2 as stated: on a concrete all-white decodable input
(zero boxes), the placeholder pixels have gray value 0 (black), not 255
(white) as the claim asserts. -/
theorem blankFallback_white_counterexample :
    (getOkL (FindLetters whitePixelImage)).length = 6
    ∧ ((getOkL (FindLetters whitePixelImage)).headD emptyGray).pixel 0 0 = 0
    ∧ ¬ ((getOkL (FindLetters whitePixelImage)).headD emptyGray).pixel 0 0 = 255 := by
  decide

/-- Witness for C2 (amended) at the concrete all-white input. -/
theorem blankFallback_witness :
    (FindLetterBoxes (MonoChrome (Grayscale whitePixelImage) MonoWeight)
        MaximumLetterLength).length ≠ 6
    ∧ FindLetters whitePixelImage = .ok (List.replicate 6 blankLetter) :=
  ⟨by decide, (blankFallback whitePixelImage (Or.inl ⟨by decide, by decide⟩)).1⟩

/-- Claim C3: when segmentation yields a box count outside {6, 7} on a decoded
input, `Solve` returns the six-sentinel string `"------"` and no error,
provided the blank placeholder's fingerprint is absent from the dictionary. -/
theorem solveSentinel (compress : List Char → List (Fin 256))
    (featureMap : String → Option String) (img : RGBAImage)
    (hn6 : (FindLetterBoxes (MonoChrome (Grayscale img) MonoWeight)
        MaximumLetterLength).length ≠ 6)
    (hn7 : (FindLetterBoxes (MonoChrome (Grayscale img) MonoWeight)
        MaximumLetterLength).length ≠ 7)
    (hblank : featureMap (fingerprint compress blankLetter) = none) :
    Solve compress featureMap img = .ok "------" := by
  have hfl : FindLettersGray (Grayscale img) = .ok (List.replicate 6 blankLetter) :=
    findLettersGray_blank _ (Or.inr (by rw [lettersOf_length]; exact ⟨hn6, hn7⟩))
  show SolveGray compress featureMap (Grayscale img) = .ok "------"
  rw [solveGray_eq _ _ _ _ hfl]
  simp only [List.map_replicate, hblank, Option.getD_none]
  decide

/-- Witness for C3 at the concrete all-white input (zero boxes) with the empty
dictionary. -/
theorem solveSentinel_witness :
    (FindLetterBoxes (MonoChrome (Grayscale whitePixelImage) MonoWeight)
        MaximumLetterLength).length ≠ 6
    ∧ emptyDict (fingerprint emptyCompress blankLetter) = none
    ∧ Solve emptyCompress emptyDict whitePixelImage = .ok "------" :=
  ⟨by decide, rfl,
   solveSentinel emptyCompress emptyDict whitePixelImage (by decide) (by decide) rfl⟩

/-- Claim C4: whenever `Solve` returns without an error, the string has exactly
6 characters, one per glyph, each the dictionary value of that glyph's
fingerprint or the sentinel `"-"` when the fingerprint is absent (absence never
errors), under the precondition that all dictionary values are single
characters. -/
theorem solveShape (compress : List Char → List (Fin 256))
    (featureMap : String → Option String) (img : RGBAImage) (s : String)
    (hdict : ∀ f v, featureMap f = some v → v.length = 1)
    (hok : Solve compress featureMap img = .ok s) :
    s.length = 6 ∧
    ∃ letters, FindLetters img = .ok letters ∧ letters.length = 6 ∧
      s = String.join
        (letters.map fun l => (featureMap (fingerprint compress l)).getD "-") := by
  obtain ⟨letters, hL, h6⟩ := findLettersGray_never_error (Grayscale img)
  have hs : Solve compress featureMap img =
      .ok (String.join
        (letters.map fun l => (featureMap (fingerprint compress l)).getD "-")) :=
    solveGray_eq _ _ _ _ hL
  rw [hs] at hok
  have hseq : s = String.join
      (letters.map fun l => (featureMap (fingerprint compress l)).getD "-") := by
    have := hok
    simpa using this.symm
  have hone : ∀ str ∈ (letters.map fun l =>
      (featureMap (fingerprint compress l)).getD "-"), str.length = 1 := by
    intro str hstr
    obtain ⟨l, _, rfl⟩ := List.mem_map.mp hstr
    cases hfm : featureMap (fingerprint compress l) with
    | none => rfl
    | some v =>
      exact hdict _ v hfm
  refine ⟨?_, letters, hL, h6, hseq⟩
  rw [hseq, join_length, sum_lengths_one _ hone, List.length_map, h6]

/-- Witness for C4 at the concrete all-white input with the empty dictionary. -/
theorem solveShape_witness :
    Solve emptyCompress emptyDict whitePixelImage = .ok "------"
    ∧ ("------" : String).length = 6 :=
  ⟨by decide,
   (solveShape emptyCompress emptyDict whitePixelImage "------"
     (fun f v h => by simp [emptyDict] at h) (by decide)).1⟩

/-- Claim C7: every glyph cropped from a `FindLetterBoxes` box of a mask has the
full mask height, both merge operands in the 7-box branch are non-nil images of
equal height, so the `MergeHorizontally` call inside `FindLetters` always
succeeds and the post-decode pipeline never returns an error. -/
theorem findLettersMergeSafe (img : RGBAImage) :
    (∀ b ∈ FindLetterBoxes (MonoChrome (Grayscale img) MonoWeight) MaximumLetterLength,
        (cropBox (MonoChrome (Grayscale img) MonoWeight) b).height
          = (MonoChrome (Grayscale img) MonoWeight).height)
    ∧ ((lettersOf (Grayscale img)).length = 7 →
        ∃ m, MergeHorizontally (some ((lettersOf (Grayscale img)).getD 6 emptyGray))
              (some ((lettersOf (Grayscale img)).getD 0 emptyGray)) = .ok m)
    ∧ (∃ letters, FindLetters img = .ok letters) := by
  refine ⟨?_, ?_, ?_⟩
  · intro b hb
    have := findLetterBoxes_shape (MonoChrome (Grayscale img) MonoWeight)
      MaximumLetterLength b hb
    show b.maxY - b.minY = (MonoChrome (Grayscale img) MonoWeight).height
    have hh : (MonoChrome (Grayscale img) MonoWeight).height = img.height := rfl
    omega
  · intro h7
    obtain ⟨m, hm, _, _, _⟩ := findLettersGray_seven (Grayscale img) h7
    exact ⟨m, hm⟩
  · obtain ⟨letters, hl, _⟩ := findLettersGray_never_error (Grayscale img)
    exact ⟨letters, hl⟩

/-- Witness for C7 at the concrete all-black 1×1 input and its single box. -/
theorem findLettersMergeSafe_witness :
    (⟨0, 0, 1, 1⟩ : Rect) ∈ FindLetterBoxes
        (MonoChrome (Grayscale blackPixelImage) MonoWeight) MaximumLetterLength
    ∧ (cropBox (MonoChrome (Grayscale blackPixelImage) MonoWeight) ⟨0, 0, 1, 1⟩).height
        = (MonoChrome (Grayscale blackPixelImage) MonoWeight).height :=
  ⟨by decide, (findLettersMergeSafe blackPixelImage).1 ⟨0, 0, 1, 1⟩ (by decide)⟩

/-- Claim C1 (amended): for every mask that segments into exactly 7 boxes, the
pipeline merges the 7th (last) box's glyph with the 1st (first) box's glyph in
that order (last-then-first), drops the original first box, and returns exactly
6 glyphs — but the merged glyph occupies the LAST slot (the Go code shifts the
slice left after writing the merged image into index 6), with slots 0-4 holding
the original boxes 2-6 in order, so the last slot's resolution is the one equal
to `MergeHorizontally(box7, box1)`'s fingerprint resolution. -/
theorem wrapAroundMergeLast (g : GrayImage)
    (h7 : (FindLetterBoxes (MonoChrome g MonoWeight) MaximumLetterLength).length = 7) :
    ∃ merged,
      MergeHorizontally (some ((lettersOf g).getD 6 emptyGray))
          (some ((lettersOf g).getD 0 emptyGray)) = .ok merged ∧
      FindLettersGray g = .ok (((lettersOf g).set 6 merged).drop 1) ∧
      (((lettersOf g).set 6 merged).drop 1).length = 6 ∧
      (((lettersOf g).set 6 merged).drop 1).getD 5 emptyGray = merged ∧
      (∀ i, i < 5 → (((lettersOf g).set 6 merged).drop 1).getD i emptyGray
          = (lettersOf g).getD (i + 1) emptyGray) ∧
      merged.width = ((lettersOf g).getD 6 emptyGray).width
        + ((lettersOf g).getD 0 emptyGray).width := by
  have h7' : (lettersOf g).length = 7 := by rw [lettersOf_length]; exact h7
  obtain ⟨merged, hm, hout, hw, _⟩ := findLettersGray_seven g h7'
  have hsetlen : ((lettersOf g).set 6 merged).length = 7 := by simp [h7']
  refine ⟨merged, hm, hout, by simp [h7'], ?_, ?_, hw⟩
  · rw [List.getD_eq_getElem _ _ (by simp [h7'])]
    rw [List.getElem_drop]
    have h16 : (1 : Nat) + 5 = 6 := rfl
    simp only [h16]
    rw [List.getElem_set_self]
  · intro i hi
    rw [List.getD_eq_getElem _ _ (by simp [h7']; omega)]
    rw [List.getElem_drop]
    rw [List.getElem_set_ne (by omega)]
    rw [List.getD_eq_getElem _ _ (show i + 1 < (lettersOf g).length by omega)]
    simp only [Nat.add_comm 1 i]

/-- Counterexample to C1 as stated: on a concrete mask with seven one-column
glyphs, the merged glyph (width 2, fingerprint resolving to `"A"` under a
dictionary containing only its fingerprint) ends up in the LAST output slot,
not the first: `Solve` yields `"-----A"`, not `"A-----"`, and the first slot
keeps width 1 while the merged glyph has width 2. -/
theorem wrapAroundMergeFirst_counterexample :
    SolveGray bytePerBitCompress dict0101 sevenRunImage = .ok "-----A"
    ∧ ¬ SolveGray bytePerBitCompress dict0101 sevenRunImage = .ok "A-----"
    ∧ ((getOkL (FindLettersGray sevenRunImage)).headD emptyGray).width = 1
    ∧ ((getOkL (FindLettersGray sevenRunImage)).getLastD emptyGray).width = 2 := by
  decide

/-- Witness for C1 (amended) at the concrete seven-glyph mask. -/
theorem wrapAroundMergeLast_witness :
    (FindLetterBoxes (MonoChrome sevenRunImage MonoWeight) MaximumLetterLength).length = 7
    ∧ ∃ merged, MergeHorizontally (some ((lettersOf sevenRunImage).getD 6 emptyGray))
        (some ((lettersOf sevenRunImage).getD 0 emptyGray)) = .ok merged ∧
        FindLettersGray sevenRunImage = .ok (((lettersOf sevenRunImage).set 6 merged).drop 1) := by
  refine ⟨by decide, ?_⟩
  obtain ⟨m, hm, hout, _, _, _, _⟩ := wrapAroundMergeLast sevenRunImage (by decide)
  exact ⟨m, hm, hout⟩

/-- Claim C9: `ExtractFeatures` serializes the pixels row-major (top-to-bottom,
left-to-right), `'1'` for black (gray value 0) and `'0'` otherwise, feeds the
sequence to the compressor (`zlib` at best compression in the source, modelled
as the abstract byte-function `compress`), and hex-encodes the compressed bytes
with lowercase digits; the fingerprint is a deterministic function of the pixel
content and dimensions. -/
theorem extractFeatures_spec (compress : List Char → List (Fin 256)) (img : GrayImage) :
    ExtractFeatures compress img = .ok (hexEncodeToString (compress (serializeRowMajor img)))
    ∧ (serializeRowMajor img).length = img.width * img.height
    ∧ (∀ x y, x < img.width → y < img.height →
        (serializeRowMajor img).getD (y * img.width + x) 'x' =
          (if grayAt img x y = 0 then '1' else '0'))
    ∧ (∀ ch ∈ (fingerprint compress img).data, ch ∈ hexDigits)
    ∧ (∀ img2 : GrayImage, img.width = img2.width → img.height = img2.height →
        (∀ x y, x < img.width → y < img.height → img.pixel x y = img2.pixel x y) →
        fingerprint compress img = fingerprint compress img2) := by
  refine ⟨rfl, serialize_length img,
    fun x y hx hy => serialize_getD img x y 'x' hx hy,
    fingerprint_hex compress img, ?_⟩
  intro img2 hw hh hp
  unfold fingerprint
  rw [serialize_congr img img2 hw hh hp]

/-- Witness for C9 at a concrete 2×1 black-white image: serialization order and
bit values, and fingerprint equality against an image with identical in-bounds
pixel content but different out-of-bounds junk. -/
theorem extractFeatures_spec_witness :
    (serializeRowMajor twoPixelImage).getD (0 * twoPixelImage.width + 0) 'x' =
      (if grayAt twoPixelImage 0 0 = 0 then '1' else '0')
    ∧ fingerprint bytePerBitCompress twoPixelImage =
        fingerprint bytePerBitCompress twoPixelImageJunk
    ∧ fingerprint bytePerBitCompress twoPixelImage = "0100" := by
  refine ⟨(extractFeatures_spec bytePerBitCompress twoPixelImage).2.2.1 0 0
      (by decide) (by decide),
    (extractFeatures_spec bytePerBitCompress twoPixelImage).2.2.2.2 twoPixelImageJunk
      rfl rfl ?_, by decide⟩
  intro x y hx hy
  have hx' : x < 2 := hx
  have hy' : y < 1 := hy
  interval_cases x <;> interval_cases y <;> rfl
end AmazonCaptcha
